import Mathlib

/-
A verification development for the shard-level storage engine of the
`streaming` repository: the global sample index (binary search over
cumulative shard sizes), the MDS joint-shard blob layout, the XSV
split-shard writer/reader pair, and the format dispatch table.  Byte
strings are modelled as `List Nat`, machine 32-bit integers as `Nat`
values reduced modulo `2 ^ 32` where the code truncates.
-/

/-- Byte strings (Python `bytes` / `str` contents) as lists of byte values. -/
abbrev Bytes := List Nat

/-- Running sums with a starting accumulator (`np.cumsum` over a list,
offset by `acc`). -/
def cumsumFrom {α : Type} [Add α] (acc : α) : List α → List α
  | [] => []
  | x :: xs => (acc + x) :: cumsumFrom (acc + x) xs

/-- `np.cumsum`: elementwise running sums of a list. -/
def cumsum {α : Type} [Add α] [OfNat α 0] (l : List α) : List α :=
  cumsumFrom 0 l

/-- `Index.__init__`: `self.shard_offsets = np.array([0] + shard_sizes).cumsum().tolist()`. -/
def shard_offsets (shard_sizes : List Int) : List Int :=
  cumsum (0 :: shard_sizes)

/-- The `while True` loop of `Index.find`, with explicit fuel standing for
the number of iterations still allowed (`none` = the loop has not exited
within the allotted iterations). -/
def findLoop (offsets : List Int) (idx : Int) : Nat → Nat → Nat → Option Nat
  | _, _, 0 => none
  | low, high, fuel + 1 =>
    if low + 1 = high then
      if idx = offsets.getD high 0 then some high else some low
    else
      let mid := (low + high) / 2
      let div := offsets.getD mid 0
      if idx < div then findLoop offsets idx low mid fuel
      else if div < idx then findLoop offsets idx mid high fuel
      else some mid

/-- `Index.find`: binary search between `low = 0` and
`high = len(shard_offsets) - 1`, then `offset = idx - shard_offsets[shard]`.
The fuel `offsets.length` dominates the iteration count of every
terminating run of the Python loop. -/
def Index.find (shard_sizes : List Int) (idx : Int) : Option (Nat × Int) :=
  let offsets := shard_offsets shard_sizes
  (findLoop offsets idx 0 (offsets.length - 1) offsets.length).map
    fun shard => (shard, idx - offsets.getD shard 0)

lemma cumsumFrom_length {α : Type} [Add α] (l : List α) :
    ∀ acc : α, (cumsumFrom acc l).length = l.length := by
  induction l with
  | nil => intro acc; rfl
  | cons x xs ih => intro acc; simp [cumsumFrom, ih]

lemma shard_offsets_length (sizes : List Int) :
    (shard_offsets sizes).length = sizes.length + 1 := by
  simp [shard_offsets, cumsum, cumsumFrom_length]

lemma cumsumFrom_getD (l : List Int) :
    ∀ (acc : Int) (k : Nat), k < l.length →
      (cumsumFrom acc l).getD k 0 = acc + ((l.take (k + 1)).sum) := by
  induction l with
  | nil => intro acc k h; simp at h
  | cons x xs ih =>
    intro acc k h
    cases k with
    | zero => simp [cumsumFrom]
    | succ k =>
      have hk : k < xs.length := by simpa using h
      simp only [cumsumFrom, List.getD_cons_succ, List.take_succ_cons, List.sum_cons]
      rw [ih (acc + x) k hk]
      ring

lemma shard_offsets_getD (sizes : List Int) (k : Nat) (hk : k ≤ sizes.length) :
    (shard_offsets sizes).getD k 0 = (sizes.take k).sum := by
  have h : k < (0 :: sizes).length := by simpa using Nat.lt_succ_of_le hk
  simp only [shard_offsets, cumsum]
  rw [cumsumFrom_getD _ 0 k h]
  cases k with
  | zero => simp
  | succ k => simp

/-- One unfolding step of the `Index.find` loop. -/
lemma findLoop_succ (offsets : List Int) (idx : Int) (low high fuel : Nat) :
    findLoop offsets idx low high (fuel + 1) =
      if low + 1 = high then
        (if idx = offsets.getD high 0 then some high else some low)
      else if idx < offsets.getD ((low + high) / 2) 0 then
        findLoop offsets idx low ((low + high) / 2) fuel
      else if offsets.getD ((low + high) / 2) 0 < idx then
        findLoop offsets idx ((low + high) / 2) high fuel
      else some ((low + high) / 2) := rfl

/-- The loop of `Index.find` always exits while `low < high`: each branch
either returns or strictly shrinks the gap `high - low`. -/
lemma findLoop_isSome (offsets : List Int) (idx : Int) :
    ∀ (fuel low high : Nat), low < high → high - low ≤ fuel →
      ∃ s, findLoop offsets idx low high fuel = some s := by
  intro fuel
  induction fuel with
  | zero => intro low high hlh hf; omega
  | succ fuel ih =>
    intro low high hlh hf
    rw [findLoop_succ]
    by_cases hexit : low + 1 = high
    · rw [if_pos hexit]
      by_cases heq : idx = offsets.getD high 0
      · exact ⟨high, by rw [if_pos heq]⟩
      · exact ⟨low, by rw [if_neg heq]⟩
    · rw [if_neg hexit]
      have hmid1 : low < (low + high) / 2 := by omega
      have hmid2 : (low + high) / 2 < high := by omega
      by_cases hlt : idx < offsets.getD ((low + high) / 2) 0
      · rw [if_pos hlt]
        exact ih low ((low + high) / 2) hmid1 (by omega)
      · rw [if_neg hlt]
        by_cases hgt : offsets.getD ((low + high) / 2) 0 < idx
        · rw [if_pos hgt]
          exact ih ((low + high) / 2) high hmid2 (by omega)
        · rw [if_neg hgt]
          exact ⟨(low + high) / 2, rfl⟩

/-- Correctness of the loop on an in-range index, assuming the offsets are
strictly increasing: the returned shard brackets `idx`. -/
lemma findLoop_in_range (offsets : List Int) (idx : Int)
    (SM : ∀ i j, i < j → j < offsets.length → offsets.getD i 0 < offsets.getD j 0) :
    ∀ (fuel low high : Nat), low < high → high < offsets.length →
      offsets.getD low 0 ≤ idx → idx < offsets.getD high 0 → high - low ≤ fuel →
      ∃ s, findLoop offsets idx low high fuel = some s ∧ low ≤ s ∧ s < high ∧
        offsets.getD s 0 ≤ idx ∧ idx < offsets.getD (s + 1) 0 := by
  intro fuel
  induction fuel with
  | zero => intro low high hlh _ _ _ hf; omega
  | succ fuel ih =>
    intro low high hlh hhn hlo hhi hf
    rw [findLoop_succ]
    by_cases hexit : low + 1 = high
    · have hne : idx ≠ offsets.getD high 0 := ne_of_lt hhi
      rw [if_pos hexit, if_neg hne]
      refine ⟨low, rfl, le_refl low, by omega, hlo, ?_⟩
      rw [hexit]; exact hhi
    · rw [if_neg hexit]
      have hmid1 : low < (low + high) / 2 := by omega
      have hmid2 : (low + high) / 2 < high := by omega
      by_cases hlt : idx < offsets.getD ((low + high) / 2) 0
      · rw [if_pos hlt]
        obtain ⟨s, hs, h1, h2, h3, h4⟩ :=
          ih low ((low + high) / 2) hmid1 (by omega) hlo hlt (by omega)
        exact ⟨s, hs, h1, by omega, h3, h4⟩
      · rw [if_neg hlt]
        by_cases hgt : offsets.getD ((low + high) / 2) 0 < idx
        · rw [if_pos hgt]
          obtain ⟨s, hs, h1, h2, h3, h4⟩ :=
            ih ((low + high) / 2) high hmid2 hhn (le_of_lt hgt) hhi (by omega)
          exact ⟨s, hs, by omega, h2, h3, h4⟩
        · rw [if_neg hgt]
          have heq : offsets.getD ((low + high) / 2) 0 = idx := by omega
          refine ⟨(low + high) / 2, rfl, by omega, hmid2, le_of_eq heq, ?_⟩
          rw [← heq]
          exact SM ((low + high) / 2) ((low + high) / 2 + 1) (by omega) (by omega)

/-- Behaviour of the loop when `idx` lies strictly below every offset other
than the first: the search collapses to shard `0`. -/
lemma findLoop_below (offsets : List Int) (idx : Int) :
    ∀ (fuel high : Nat), 0 < high →
      (∀ j, 1 ≤ j → j ≤ high → idx < offsets.getD j 0) → high ≤ fuel →
      findLoop offsets idx 0 high fuel = some 0 := by
  intro fuel
  induction fuel with
  | zero => intro high h0 _ hf; omega
  | succ fuel ih =>
    intro high h0 hj hf
    rw [findLoop_succ]
    by_cases hexit : 0 + 1 = high
    · have hne : idx ≠ offsets.getD high 0 :=
        ne_of_lt (hj high (by omega) (le_refl high))
      rw [if_pos hexit, if_neg hne]
    · rw [if_neg hexit]
      have hmid1 : 1 ≤ (0 + high) / 2 := by omega
      have hmid2 : (0 + high) / 2 < high := by omega
      have hlt : idx < offsets.getD ((0 + high) / 2) 0 := hj _ hmid1 (by omega)
      rw [if_pos hlt]
      exact ih ((0 + high) / 2) (by omega)
        (fun j h1 h2 => hj j h1 (by omega)) (by omega)

lemma sum_take_lt_sum_take (sizes : List Int) (hpos : ∀ s ∈ sizes, 0 < s)
    (i j : Nat) (hij : i < j) (hj : j ≤ sizes.length) :
    (sizes.take i).sum < (sizes.take j).sum := by
  have hdecomp : sizes.take j = sizes.take i ++ (sizes.drop i).take (j - i) := by
    rw [← List.take_add]
    congr 1
    omega
  rw [hdecomp, List.sum_append]
  have hlenmid : ((sizes.drop i).take (j - i)).length = min (j - i) (sizes.length - i) := by
    simp [List.length_take, List.length_drop]
  have hne : (sizes.drop i).take (j - i) ≠ [] := by
    intro h
    rw [h] at hlenmid
    simp at hlenmid
    omega
  have hposmid : ∀ x ∈ (sizes.drop i).take (j - i), 0 < x :=
    fun x hx => hpos x (List.mem_of_mem_drop (List.mem_of_mem_take hx))
  have := List.sum_pos _ hposmid hne
  omega

lemma shard_offsets_strictMono (sizes : List Int) (hpos : ∀ s ∈ sizes, 0 < s) :
    ∀ i j, i < j → j < (shard_offsets sizes).length →
      (shard_offsets sizes).getD i 0 < (shard_offsets sizes).getD j 0 := by
  intro i j hij hj
  rw [shard_offsets_length] at hj
  rw [shard_offsets_getD sizes i (by omega), shard_offsets_getD sizes j (by omega)]
  exact sum_take_lt_sum_take sizes hpos i j hij (by omega)

lemma shard_offsets_mono (sizes : List Int) (hpos : ∀ s ∈ sizes, 0 < s) :
    ∀ i j, i ≤ j → j ≤ sizes.length →
      (shard_offsets sizes).getD i 0 ≤ (shard_offsets sizes).getD j 0 := by
  intro i j hij hj
  rcases eq_or_lt_of_le hij with h | h
  · rw [h]
  · exact le_of_lt (shard_offsets_strictMono sizes hpos i j h
      (by rw [shard_offsets_length]; omega))

lemma sum_take_succ_getD (sizes : List Int) : ∀ k, k < sizes.length →
    (sizes.take (k + 1)).sum = (sizes.take k).sum + sizes.getD k 0 := by
  induction sizes with
  | nil => intro k h; simp at h
  | cons x xs ih =>
    intro k h
    cases k with
    | zero => simp
    | succ k =>
      simp only [List.take_succ_cons, List.sum_cons, List.getD_cons_succ]
      rw [ih k (by simpa using h)]
      ring

/-- Behaviour of the loop when `idx` lies strictly above every offset below
`high`: the search walks `low` up to `high - 1` and settles the tie at
`offsets[high]`. -/
lemma findLoop_above (offsets : List Int) (idx : Int) :
    ∀ (fuel low high : Nat), low < high →
      (∀ j, j < high → offsets.getD j 0 < idx) → high - low ≤ fuel →
      findLoop offsets idx low high fuel =
        some (if idx = offsets.getD high 0 then high else high - 1) := by
  intro fuel
  induction fuel with
  | zero => intro low high hlh _ hf; omega
  | succ fuel ih =>
    intro low high hlh hj hf
    rw [findLoop_succ]
    by_cases hexit : low + 1 = high
    · rw [if_pos hexit]
      by_cases heq : idx = offsets.getD high 0
      · rw [if_pos heq, if_pos heq]
      · rw [if_neg heq, if_neg heq]
        have hlow : low = high - 1 := by omega
        rw [hlow]
    · rw [if_neg hexit]
      have hmid1 : low < (low + high) / 2 := by omega
      have hmid2 : (low + high) / 2 < high := by omega
      have hgt : offsets.getD ((low + high) / 2) 0 < idx := hj _ hmid2
      have hnlt : ¬ idx < offsets.getD ((low + high) / 2) 0 := by omega
      rw [if_neg hnlt, if_pos hgt]
      exact ih ((low + high) / 2) high hmid2 hj (by omega)

lemma index_find_eq (sizes : List Int) (idx : Int) :
    Index.find sizes idx =
      (findLoop (shard_offsets sizes) idx 0 ((shard_offsets sizes).length - 1)
        (shard_offsets sizes).length).map
        (fun shard => (shard, idx - (shard_offsets sizes).getD shard 0)) := rfl

/-- C1 (amended): for an `Index` built from a list of positive shard sizes and
`0 ≤ idx < total`, `Index.find idx` returns `(shard, offset)` where `shard` is
the unique (hence largest) `k` with
`shard_offsets[k] ≤ idx < shard_offsets[k+1]` and
`offset = idx - shard_offsets[shard]`; boundary indices resolve to the shard
starting at the boundary.  The six listed values for sizes `[3, 5, 2]` hold. -/
theorem index_find_in_range :
    (∀ (sizes : List Int) (idx : Int), (∀ s ∈ sizes, 0 < s) → 0 ≤ idx → idx < sizes.sum →
      ∃ shard off, Index.find sizes idx = some (shard, off) ∧
        shard < sizes.length ∧
        (shard_offsets sizes).getD shard 0 ≤ idx ∧
        idx < (shard_offsets sizes).getD (shard + 1) 0 ∧
        off = idx - (shard_offsets sizes).getD shard 0 ∧
        (∀ k, k ≤ sizes.length → (shard_offsets sizes).getD k 0 ≤ idx →
          idx < (shard_offsets sizes).getD (k + 1) 0 → k = shard)) ∧
    Index.find [3, 5, 2] 0 = some (0, 0) ∧ Index.find [3, 5, 2] 2 = some (0, 2) ∧
    Index.find [3, 5, 2] 3 = some (1, 0) ∧ Index.find [3, 5, 2] 7 = some (1, 4) ∧
    Index.find [3, 5, 2] 8 = some (2, 0) ∧ Index.find [3, 5, 2] 9 = some (2, 1) := by
  refine ⟨?_, by decide, by decide, by decide, by decide, by decide, by decide⟩
  intro sizes idx hpos h0 hlt
  have hne : sizes ≠ [] := by
    intro h
    rw [h] at hlt
    simp at hlt
    omega
  have hn1 : 1 ≤ sizes.length := by
    cases sizes with
    | nil => exact absurd rfl hne
    | cons x xs => simp
  have hlen : (shard_offsets sizes).length = sizes.length + 1 := shard_offsets_length sizes
  have SM := shard_offsets_strictMono sizes hpos
  have hlo : (shard_offsets sizes).getD 0 0 ≤ idx := by
    rw [shard_offsets_getD sizes 0 (by omega)]
    simpa using h0
  have htop : (shard_offsets sizes).getD sizes.length 0 = sizes.sum := by
    rw [shard_offsets_getD sizes sizes.length (le_refl _), List.take_length]
  have hhi : idx < (shard_offsets sizes).getD ((shard_offsets sizes).length - 1) 0 := by
    rw [hlen, Nat.add_sub_cancel, htop]
    exact hlt
  obtain ⟨s, hs, hs1, hs2, hs3, hs4⟩ := findLoop_in_range (shard_offsets sizes) idx SM
    (shard_offsets sizes).length 0 ((shard_offsets sizes).length - 1)
    (by omega) (by omega) hlo hhi (by omega)
  have hslt : s < sizes.length := by omega
  refine ⟨s, idx - (shard_offsets sizes).getD s 0, ?_, hslt, hs3, hs4, rfl, ?_⟩
  · rw [index_find_eq, hs]
    rfl
  · intro k hk hk1 hk2
    by_contra hks
    rcases Nat.lt_or_ge k s with h | h
    · have : (shard_offsets sizes).getD (k + 1) 0 ≤ (shard_offsets sizes).getD s 0 :=
        shard_offsets_mono sizes hpos (k + 1) s (by omega) (by omega)
      omega
    · have hsk : s < k := by omega
      have hklt : k < sizes.length := by
        rcases Nat.lt_or_ge k sizes.length with h2 | h2
        · exact h2
        · exfalso
          have hkeq : k = sizes.length := by omega
          rw [hkeq, htop] at hk1
          omega
      have : (shard_offsets sizes).getD (s + 1) 0 ≤ (shard_offsets sizes).getD k 0 :=
        shard_offsets_mono sizes hpos (s + 1) k (by omega) (by omega)
      omega

/-- C1 witness: the general in-range characterization applied to shard sizes
`[3, 5, 2]` at global index `7`. -/
theorem index_find_in_range_witness :
    ∃ shard off, Index.find [3, 5, 2] 7 = some (shard, off) ∧
      shard < ([3, 5, 2] : List Int).length ∧
      (shard_offsets [3, 5, 2]).getD shard 0 ≤ 7 ∧
      (7 : Int) < (shard_offsets [3, 5, 2]).getD (shard + 1) 0 ∧
      off = 7 - (shard_offsets [3, 5, 2]).getD shard 0 ∧
      (∀ k, k ≤ ([3, 5, 2] : List Int).length → (shard_offsets [3, 5, 2]).getD k 0 ≤ 7 →
        (7 : Int) < (shard_offsets [3, 5, 2]).getD (k + 1) 0 → k = shard) :=
  index_find_in_range.1 [3, 5, 2] 7 (by decide) (by decide) (by decide)

/-- C1 counterexample to the claim over arbitrary shard-size lists: with a
zero-size shard, sizes `[3, 0, 5]` and `idx = 3`, the largest `k` with
`shard_offsets[k] ≤ 3 < shard_offsets[k+1]` is `2`, but `Index.find` returns
shard `1` (the zero-size shard). -/
theorem index_find_zero_size_shard_cex :
    Index.find [3, 0, 5] 3 = some (1, 0) ∧
    (shard_offsets [3, 0, 5]).getD 2 0 ≤ 3 ∧
    (3 : Int) < (shard_offsets [3, 0, 5]).getD 3 0 ∧
    Index.find [3, 0, 5] 3 ≠ some (2, 3 - (shard_offsets [3, 0, 5]).getD 2 0) := by
  decide

lemma sum_take_le_sum_take (sizes : List Int) (hnn : ∀ s ∈ sizes, 0 ≤ s)
    (i j : Nat) (hij : i ≤ j) :
    (sizes.take i).sum ≤ (sizes.take j).sum := by
  have hdecomp : sizes.take j = sizes.take i ++ (sizes.drop i).take (j - i) := by
    rw [← List.take_add]
    congr 1
    omega
  rw [hdecomp, List.sum_append]
  have : 0 ≤ ((sizes.drop i).take (j - i)).sum :=
    List.sum_nonneg
      (fun x hx => hnn x (List.mem_of_mem_drop (List.mem_of_mem_take hx)))
  omega

/-- C2 (amended): for an `Index` built from a non-empty list of nonnegative
shard sizes, `Index.find` performs no bounds check and never fails on an
out-of-range index; instead it returns a pair that is never a valid
(shard, offset) position — the shard is past the end or the offset is
negative or at least the shard's size — so out-of-range indices are never
clamped or wrapped to valid samples. -/
theorem index_find_out_of_range (sizes : List Int) (idx : Int)
    (hnn : ∀ s ∈ sizes, 0 ≤ s) (hne : sizes ≠ [])
    (hout : idx < 0 ∨ sizes.sum ≤ idx) :
    ∃ p, Index.find sizes idx = some p ∧
      ¬(p.1 < sizes.length ∧ 0 ≤ p.2 ∧ p.2 < sizes.getD p.1 0) := by
  have hn1 : 1 ≤ sizes.length := by
    cases sizes with
    | nil => exact absurd rfl hne
    | cons x xs => simp
  have hlen : (shard_offsets sizes).length = sizes.length + 1 := shard_offsets_length sizes
  have hzero : (shard_offsets sizes).getD 0 0 = 0 := by
    rw [shard_offsets_getD sizes 0 (by omega)]
    simp
  rcases hout with hneg | habove
  · have hbelow : ∀ j, 1 ≤ j → j ≤ (shard_offsets sizes).length - 1 →
        idx < (shard_offsets sizes).getD j 0 := by
      intro j h1 h2
      rw [shard_offsets_getD sizes j (by omega)]
      have : 0 ≤ (sizes.take j).sum :=
        List.sum_nonneg (fun x hx => hnn x (List.mem_of_mem_take hx))
      omega
    have hloop := findLoop_below (shard_offsets sizes) idx (shard_offsets sizes).length
      ((shard_offsets sizes).length - 1) (by omega) hbelow (by omega)
    refine ⟨(0, idx - (shard_offsets sizes).getD 0 0), ?_, ?_⟩
    · rw [index_find_eq, hloop]
      rfl
    · rw [hzero]
      intro h
      omega
  · obtain ⟨s, hs⟩ := findLoop_isSome (shard_offsets sizes) idx
      (shard_offsets sizes).length 0 ((shard_offsets sizes).length - 1)
      (by omega) (by omega)
    refine ⟨(s, idx - (shard_offsets sizes).getD s 0), ?_, ?_⟩
    · rw [index_find_eq, hs]
      rfl
    · rcases Nat.lt_or_ge s sizes.length with hslt | hsge
      · have hto : (shard_offsets sizes).getD s 0 = (sizes.take s).sum :=
          shard_offsets_getD sizes s (by omega)
        have hsucc : (sizes.take (s + 1)).sum = (sizes.take s).sum + sizes.getD s 0 :=
          sum_take_succ_getD sizes s hslt
        have hle : (sizes.take (s + 1)).sum ≤ (sizes.take sizes.length).sum :=
          sum_take_le_sum_take sizes hnn (s + 1) sizes.length (by omega)
        have htot : (sizes.take sizes.length).sum = sizes.sum := by
          rw [List.take_length]
        show ¬(s < sizes.length ∧ 0 ≤ idx - (shard_offsets sizes).getD s 0 ∧
          idx - (shard_offsets sizes).getD s 0 < sizes.getD s 0)
        rw [hto]
        intro h
        omega
      · show ¬(s < sizes.length ∧ 0 ≤ idx - (shard_offsets sizes).getD s 0 ∧
          idx - (shard_offsets sizes).getD s 0 < sizes.getD s 0)
        intro h
        omega

/-- C2 witness: out-of-range behaviour at shard sizes `[3, 5, 2]`, index 10. -/
theorem index_find_out_of_range_witness :
    ∃ p, Index.find [3, 5, 2] 10 = some p ∧
      ¬(p.1 < ([3, 5, 2] : List Int).length ∧ 0 ≤ p.2 ∧
        p.2 < ([3, 5, 2] : List Int).getD p.1 0) :=
  index_find_out_of_range [3, 5, 2] 10 (by decide) (by decide) (by decide)

/-- C2 counterexample to the claim as stated: `Index.find` does not fail on
out-of-range indices; on sizes `[3, 5, 2]` it returns the pair `(3, 0)` for
index 10 (a shard index equal to the shard count) and `(0, -1)` for index -1
(a negative in-shard offset). -/
theorem index_find_out_of_range_cex :
    Index.find [3, 5, 2] 10 = some (3, 0) ∧
    Index.find [3, 5, 2] (-1) = some (0, -1) ∧
    ([3, 5, 2] : List Int).length = 3 := by
  decide

/-- C10: for every `Index` built from a non-empty shard-size list and every
integer `idx`, the binary-search loop of `Index.find` terminates (the gap
`high - low` strictly shrinks, so `offsets.length` iterations always
suffice); for the `Index` built from the empty shard list the loop runs
forever on `idx = 1` (no fuel bound makes it exit). -/
theorem index_find_terminates :
    (∀ (sizes : List Int) (idx : Int), sizes ≠ [] →
      (Index.find sizes idx).isSome = true) ∧
    (∀ fuel : Nat,
      findLoop (shard_offsets []) 1 0 ((shard_offsets []).length - 1) fuel = none) := by
  constructor
  · intro sizes idx hne
    have hn1 : 1 ≤ sizes.length := by
      cases sizes with
      | nil => exact absurd rfl hne
      | cons x xs => simp
    have hlen : (shard_offsets sizes).length = sizes.length + 1 := shard_offsets_length sizes
    obtain ⟨s, hs⟩ := findLoop_isSome (shard_offsets sizes) idx
      (shard_offsets sizes).length 0 ((shard_offsets sizes).length - 1) (by omega) (by omega)
    rw [index_find_eq, hs]
    rfl
  · intro fuel
    have hoff : shard_offsets [] = [0] := by decide
    rw [hoff]
    induction fuel with
    | zero => rfl
    | succ fuel ih =>
      rw [findLoop_succ]
      norm_num
      exact ih

/-- C10 witness: termination on the non-empty sizes `[3]` at index 5, and the
empty-list loop still spinning after 7 iterations. -/
theorem index_find_terminates_witness :
    (Index.find [3] 5).isSome = true ∧
    findLoop (shard_offsets []) 1 0 ((shard_offsets []).length - 1) 7 = none :=
  ⟨index_find_terminates.1 [3] 5 (by decide), index_find_terminates.2 7⟩

/-- `np.uint32(x).tobytes()`: the four little-endian bytes of `x mod 2^32`. -/
def u32Bytes (x : Nat) : Bytes :=
  [x % 2 ^ 32 % 256, x % 2 ^ 32 / 256 % 256, x % 2 ^ 32 / 65536 % 256,
    x % 2 ^ 32 / 16777216 % 256]

/-- Reading a little-endian uint32 from the first four bytes of a buffer
(`np.frombuffer(_, np.uint32)`). -/
def leU32 (l : Bytes) : Nat :=
  l.getD 0 0 + 256 * l.getD 1 0 + 65536 * l.getD 2 0 + 16777216 * l.getD 3 0

/-- `np.uint32` subtraction `e - b` (wraps modulo `2^32`), for `b < 2^32`. -/
def u32sub (e b : Nat) : Nat :=
  (e + 2 ^ 32 - b) % 2 ^ 32

lemma u32Bytes_length (x : Nat) : (u32Bytes x).length = 4 := rfl

lemma leU32_u32Bytes (x : Nat) : leU32 (u32Bytes x) = x % 2 ^ 32 := by
  simp only [u32Bytes, leU32, List.getD_cons_zero, List.getD_cons_succ]
  omega

lemma u32sub_of_le (e b : Nat) (hbe : b ≤ e) (he : e < 2 ^ 32) :
    u32sub e b = e - b := by
  simp only [u32sub]
  omega

lemma join_map_u32Bytes_length (l : List Nat) :
    ((l.map u32Bytes).flatten).length = 4 * l.length := by
  induction l with
  | nil => rfl
  | cons x xs ih =>
    simp only [List.map_cons, List.flatten_cons, List.length_append, u32Bytes_length, ih,
      List.length_cons]
    omega

/-- `MDSWriter._encode_joint_shard`: `[num_samples: u32][offsets: (n+1) × u32]
[config][sample bytes]`, where the offsets are the cumulative sums of
`[0] + sizes` shifted by the byte length of the header
(`4 + 4 * (n + 1) + len(config_data)`). -/
def encode_joint_shard (new_samples : List Bytes) (config_data : Bytes) : Bytes :=
  let sizes := new_samples.map List.length
  let offsets0 := cumsum (0 :: sizes)
  let offsets := offsets0.map (fun t => t + (4 + 4 * offsets0.length + config_data.length))
  u32Bytes new_samples.length ++ (offsets.map u32Bytes).flatten ++ config_data ++ new_samples.flatten

/-- The spec's offset-table recurrence (the first entry is
`4 + 4*(sample_count+1) + len(config_blob)`; each subsequent entry is the
previous plus that sample's encoded length), stated from the spec's words
for comparison against `encode_joint_shard`. -/
def offsetTableSpec (first : Nat) : List Nat → List Nat
  | [] => [first]
  | s :: ss => first :: offsetTableSpec (first + s) ss

lemma offsetTableSpec_length (first : Nat) (l : List Nat) :
    (offsetTableSpec first l).length = l.length + 1 := by
  induction l generalizing first with
  | nil => rfl
  | cons x xs ih => simp [offsetTableSpec, ih]

lemma cumsumFrom_map_add (l : List Nat) :
    ∀ a h : Nat, ((a :: cumsumFrom a l).map (fun t => t + h)) = offsetTableSpec (a + h) l := by
  induction l with
  | nil => intro a h; rfl
  | cons x xs ih =>
    intro a h
    simp only [cumsumFrom, List.map_cons, offsetTableSpec]
    have := ih (a + x) h
    simp only [List.map_cons] at this
    rw [this]
    have harg : a + x + h = a + h + x := by omega
    rw [harg]

lemma cumsum_zero_cons (l : List Nat) :
    cumsum (0 :: l) = 0 :: cumsumFrom 0 l := by
  simp [cumsum, cumsumFrom]

/-- C3: the MDS joint-shard blob is exactly
`[n as u32][offset table of n+1 u32 entries][config][samples]` where the
offset table satisfies the spec's recurrence (first entry
`4 + 4*(n+1) + len(config)`, subsequent entries previous + sample length),
and its total length is the sum of sample sizes plus the per-shard overhead
`4 + 4 + len(config)` plus 4 bytes per sample. -/
theorem encode_joint_shard_layout (new_samples : List Bytes) (config_data : Bytes) :
    encode_joint_shard new_samples config_data =
      u32Bytes new_samples.length ++
        ((offsetTableSpec (4 + 4 * (new_samples.length + 1) + config_data.length)
          (new_samples.map List.length)).map u32Bytes).flatten ++
        config_data ++ new_samples.flatten ∧
    (encode_joint_shard new_samples config_data).length =
      (new_samples.map List.length).sum + (4 + 4 + config_data.length) +
        4 * new_samples.length := by
  have hlen0 : (cumsum ((0 : Nat) :: new_samples.map List.length)).length =
      new_samples.length + 1 := by
    simp [cumsum, cumsumFrom_length]
  have htable : (cumsum ((0 : Nat) :: new_samples.map List.length)).map
        (fun t => t + (4 + 4 * (new_samples.length + 1) + config_data.length)) =
      offsetTableSpec (4 + 4 * (new_samples.length + 1) + config_data.length)
        (new_samples.map List.length) := by
    rw [cumsum_zero_cons]
    have := cumsumFrom_map_add (new_samples.map List.length) 0
      (4 + 4 * (new_samples.length + 1) + config_data.length)
    simpa using this
  constructor
  · show u32Bytes new_samples.length ++
        (((cumsum ((0 : Nat) :: new_samples.map List.length)).map
          (fun t => t + (4 + 4 * (cumsum ((0 : Nat) :: new_samples.map List.length)).length
            + config_data.length))).map u32Bytes).flatten ++
        config_data ++ new_samples.flatten = _
    rw [hlen0, htable]
  · show (u32Bytes new_samples.length ++
        (((cumsum ((0 : Nat) :: new_samples.map List.length)).map
          (fun t => t + (4 + 4 * (cumsum ((0 : Nat) :: new_samples.map List.length)).length
            + config_data.length))).map u32Bytes).flatten ++
        config_data ++ new_samples.flatten).length = _
    rw [hlen0, htable]
    rw [List.length_append, List.length_append, List.length_append, u32Bytes_length,
      join_map_u32Bytes_length, offsetTableSpec_length, List.length_map,
      List.length_flatten]
    omega

/-- `XSVReader._get_sample_data`: seek to `(1 + idx) * 4` in the meta file,
read 8 bytes, parse two consecutive little-endian uint32 offsets, then read
`end - begin` (uint32 subtraction) bytes of the data file starting at
`begin`.  `none` models the raised errors: a negative seek offset (OSError)
or a short read rejected by `np.frombuffer` / tuple unpacking. -/
def xsvGetSampleData (meta data : Bytes) (idx : Int) : Option Bytes :=
  let offset : Int := (1 + idx) * 4
  if offset < 0 then none
  else
    let pair := (meta.drop offset.toNat).take 8
    if pair.length = 8 then
      let begin_ := leU32 (pair.take 4)
      let end_ := leU32 (pair.drop 4)
      some ((data.drop begin_).take (u32sub end_ begin_))
    else none

lemma drop_append_len {α : Type} (l1 l2 : List α) (k : Nat) :
    (l1 ++ l2).drop (l1.length + k) = l2.drop k := by
  induction l1 with
  | nil => simp
  | cons x xs ih =>
    have h1 : (x :: xs).length + k = (xs.length + k) + 1 := by simp; omega
    rw [h1, List.cons_append, List.drop_succ_cons, ih]

lemma take_append_len {α : Type} (l1 l2 : List α) (k : Nat) :
    (l1 ++ l2).take (l1.length + k) = l1 ++ l2.take k := by
  induction l1 with
  | nil => simp
  | cons x xs ih =>
    have h1 : (x :: xs).length + k = (xs.length + k) + 1 := by simp; omega
    rw [h1, List.cons_append, List.take_succ_cons, ih, List.cons_append]

lemma flatten_map_u32_drop (config : Bytes) (offs : List Nat) :
    ∀ i, i ≤ offs.length →
      ((offs.map u32Bytes).flatten ++ config).drop (4 * i) =
        ((offs.drop i).map u32Bytes).flatten ++ config := by
  induction offs with
  | nil =>
    intro i h
    simp only [List.length_nil, Nat.le_zero] at h
    rw [h]
    rfl
  | cons o os ih =>
    intro i h
    cases i with
    | zero => rfl
    | succ i =>
      have h4 : 4 * (i + 1) = (u32Bytes o).length + 4 * i := by
        rw [u32Bytes_length]
        omega
      rw [List.map_cons, List.flatten_cons, List.append_assoc, h4, drop_append_len,
        List.drop_succ_cons]
      exact ih i (by simpa using h)

lemma drop_eq_getD_cons (l : List Nat) :
    ∀ i, i < l.length → l.drop i = l.getD i 0 :: l.drop (i + 1) := by
  induction l with
  | nil => intro i h; simp at h
  | cons x xs ih =>
    intro i h
    cases i with
    | zero => rfl
    | succ i =>
      rw [List.drop_succ_cons, List.getD_cons_succ, ih i (by simpa using h)]
      rfl

/-- C5: for a split-shard meta file laid out as
`[sample_count: u32][offset table × u32][config]`, fetching sample `i` reads
the two consecutive uint32 offsets at byte position `4*(1+i)` and returns
exactly the byte range `[offsets[i], offsets[i+1])` of the data file. -/
theorem xsv_get_sample_data_in_range (n : Nat) (offs : List Nat) (config data : Bytes)
    (i : Nat) (hi : i + 1 < offs.length)
    (hmono : offs.getD i 0 ≤ offs.getD (i + 1) 0)
    (hbound : offs.getD (i + 1) 0 < 2 ^ 32) :
    xsvGetSampleData (u32Bytes n ++ (offs.map u32Bytes).flatten ++ config) data i =
      some ((data.drop (offs.getD i 0)).take (offs.getD (i + 1) 0 - offs.getD i 0)) := by
  have hnneg : ¬ ((1 + (i : Int)) * 4 < 0) := by omega
  have htoNat : ((1 + (i : Int)) * 4).toNat = (u32Bytes n).length + 4 * i := by
    rw [u32Bytes_length]
    omega
  have hdrop : (u32Bytes n ++ (offs.map u32Bytes).flatten ++ config).drop
      (((1 + (i : Int)) * 4).toNat) =
      ((offs.drop i).map u32Bytes).flatten ++ config := by
    rw [List.append_assoc, htoNat, drop_append_len]
    exact flatten_map_u32_drop config offs i (by omega)
  have hoffsdrop : offs.drop i = offs.getD i 0 :: offs.getD (i + 1) 0 :: offs.drop (i + 2) :=
    by
    rw [drop_eq_getD_cons offs i (by omega), drop_eq_getD_cons offs (i + 1) hi]
  have hpair : ((u32Bytes n ++ (offs.map u32Bytes).flatten ++ config).drop
      (((1 + (i : Int)) * 4).toNat)).take 8 =
      u32Bytes (offs.getD i 0) ++ u32Bytes (offs.getD (i + 1) 0) := by
    rw [hdrop, hoffsdrop]
    rw [List.map_cons, List.map_cons, List.flatten_cons, List.flatten_cons]
    rw [List.append_assoc]
    have h8 : (8 : Nat) = (u32Bytes (offs.getD i 0)).length + 4 := by
      rw [u32Bytes_length]
    rw [h8, take_append_len]
    have h4 : (4 : Nat) = (u32Bytes (offs.getD (i + 1) 0)).length + 0 := by
      rw [u32Bytes_length]
    rw [List.append_assoc, h4, take_append_len]
    simp
  have hlen8 : (u32Bytes (offs.getD i 0) ++ u32Bytes (offs.getD (i + 1) 0)).length = 8 := by
    simp [u32Bytes_length]
  have htake4 : (u32Bytes (offs.getD i 0) ++ u32Bytes (offs.getD (i + 1) 0)).take 4 =
      u32Bytes (offs.getD i 0) := by
    have h4 : (4 : Nat) = (u32Bytes (offs.getD i 0)).length + 0 := by
      rw [u32Bytes_length]
    rw [h4, take_append_len]
    simp
  have hdrop4 : (u32Bytes (offs.getD i 0) ++ u32Bytes (offs.getD (i + 1) 0)).drop 4 =
      u32Bytes (offs.getD (i + 1) 0) := by
    have h4 : (4 : Nat) = (u32Bytes (offs.getD i 0)).length + 0 := by
      rw [u32Bytes_length]
    rw [h4, drop_append_len]
    rfl
  show (if (1 + (i : Int)) * 4 < 0 then none else _) = _
  rw [if_neg hnneg]
  simp only [hpair, hlen8, eq_self_iff_true, if_true, htake4, hdrop4, leU32_u32Bytes]
  have hb1 : offs.getD i 0 % 2 ^ 32 = offs.getD i 0 := Nat.mod_eq_of_lt (by omega)
  have hb2 : offs.getD (i + 1) 0 % 2 ^ 32 = offs.getD (i + 1) 0 := Nat.mod_eq_of_lt hbound
  simp only [hb1, hb2]
  rw [u32sub_of_le _ _ hmono hbound]
  rw [if_neg hnneg]

/-- C5 witness: a two-sample meta file with offsets `[2, 5]` and data
`"a\nhi\n"`; fetching sample 0 returns bytes `[2, 5)` of the data file. -/
theorem xsv_get_sample_data_in_range_witness :
    xsvGetSampleData (u32Bytes 1 ++ ([2, 5].map u32Bytes).flatten ++ [123, 125])
        [97, 10, 104, 105, 10] 0 =
      some (([97, 10, 104, 105, 10].drop ([2, 5].getD 0 0)).take
        ([2, 5].getD 1 0 - [2, 5].getD 0 0)) :=
  xsv_get_sample_data_in_range 1 [2, 5] [123, 125] [97, 10, 104, 105, 10] 0
    (by decide) (by decide) (by decide)

/-- The scanning loop of Python `str.split(sep)` for a non-empty separator
`s0 :: srest`: split at every non-overlapping occurrence, left to right.
The fuel argument (one unit per scanned character) makes the recursion
structural; `text.length` units always suffice. -/
def splitOnAux (s0 : Nat) (srest : List Nat) : Nat → List Nat → List Nat → List (List Nat)
  | _, acc, [] => [acc.reverse]
  | 0, acc, text => [acc.reverse ++ text]
  | fuel + 1, acc, c :: rest =>
    if (s0 :: srest) <+: (c :: rest) then
      acc.reverse :: splitOnAux s0 srest fuel [] (rest.drop srest.length)
    else splitOnAux s0 srest fuel (c :: acc) rest

/-- Python `text.split(sep)`: `none` models the `ValueError` raised on an
empty separator. -/
def pySplit (sep text : Bytes) : Option (List Bytes) :=
  match sep with
  | [] => none
  | s0 :: srest => some (splitOnAux s0 srest text.length [] text)

/-- Python `text[:-n]` as used by `_decode_sample` (`text[:-len(newline)]`);
for `n = 0` this is `text[:0] = ''`. -/
def pyDropLast (n : Nat) (l : Bytes) : Bytes :=
  if n = 0 then [] else l.take (l.length - n)

/-- Python `sep.join(values)`. -/
def pyJoin (sep : Bytes) : List Bytes → Bytes
  | [] => []
  | [v] => v
  | v :: w :: vs => v ++ sep ++ pyJoin sep (w :: vs)

/-- The loop of `XSVWriter._encode_sample`: encode each column's value with
its encoding, assert the result contains neither the newline nor the
separator.  `none` models an assertion failure or an encoding error. -/
def xsvEncodeValues {V : Type} (sep nl : Bytes) (sample : Bytes → V) :
    List (Bytes × (V → Option Bytes)) → Option (List Bytes)
  | [] => some []
  | (name, enc) :: cols =>
    match enc (sample name) with
    | none => none
    | some v =>
      if nl <:+: v then none
      else if sep <:+: v then none
      else
        match xsvEncodeValues sep nl sample cols with
        | none => none
        | some rest => some (v :: rest)

/-- `XSVWriter._encode_sample`: the separator-joined encoded values followed
by the newline. -/
def xsvEncodeSample {V : Type} (columns : List (Bytes × (V → Option Bytes)))
    (sep nl : Bytes) (sample : Bytes → V) : Option Bytes :=
  (xsvEncodeValues sep nl sample columns).map (fun vs => pyJoin sep vs ++ nl)

/-- `XSVReader._decode_sample`: strip the trailing `len(newline)` characters,
split on the separator, and decode the parts zipped against the declared
columns (zip truncates at the shorter sequence, as in Python). -/
def xsvDecodeSample {V : Type} (columns : List (Bytes × (Bytes → V)))
    (sep nl : Bytes) (data : Bytes) : Option (List (Bytes × V)) :=
  (pySplit sep (pyDropLast nl.length data)).map
    (fun parts => (columns.zip parts).map (fun p => (p.1.1, p.1.2 p.2)))

lemma singleton_isPrefix_cons (c x : Nat) (r : List Nat) : ([c] <+: x :: r) ↔ c = x := by
  constructor
  · rintro ⟨t, ht⟩
    simp only [List.cons_append, List.nil_append, List.cons.injEq] at ht
    exact ht.1
  · rintro rfl
    exact ⟨r, rfl⟩

lemma singleton_isInfix_iff_mem (c : Nat) (l : List Nat) : ([c] <:+: l) ↔ c ∈ l := by
  constructor
  · intro h
    exact List.singleton_sublist.mp h.sublist
  · intro h
    obtain ⟨s, t, rfl⟩ := List.append_of_mem h
    exact ⟨s, t, by simp⟩

lemma splitOnAux_succ (s0 : Nat) (srest : List Nat) (fuel : Nat) (acc : List Nat)
    (c : Nat) (rest : List Nat) :
    splitOnAux s0 srest (fuel + 1) acc (c :: rest) =
      if (s0 :: srest) <+: (c :: rest) then
        acc.reverse :: splitOnAux s0 srest fuel [] (rest.drop srest.length)
      else splitOnAux s0 srest fuel (c :: acc) rest := rfl

lemma splitOnAux_fuel_irrelevant (s0 : Nat) (srest : List Nat) :
    ∀ (fuel fuel' : Nat) (acc text : List Nat), text.length ≤ fuel →
      text.length ≤ fuel' →
      splitOnAux s0 srest fuel acc text = splitOnAux s0 srest fuel' acc text := by
  intro fuel
  induction fuel with
  | zero =>
    intro fuel' acc text h h'
    have : text = [] := List.eq_nil_of_length_eq_zero (by omega)
    rw [this]
    cases fuel' <;> rfl
  | succ fuel ih =>
    intro fuel' acc text h h'
    cases text with
    | nil => cases fuel' <;> rfl
    | cons c rest =>
      have h1 : 1 ≤ fuel' := by
        simp only [List.length_cons] at h'
        omega
      obtain ⟨f', rfl⟩ : ∃ f', fuel' = f' + 1 := ⟨fuel' - 1, by omega⟩
      rw [splitOnAux_succ, splitOnAux_succ]
      by_cases hpre : (s0 :: srest) <+: (c :: rest)
      · rw [if_pos hpre, if_pos hpre]
        have hlen : (rest.drop srest.length).length ≤ fuel := by
          rw [List.length_drop]
          simp only [List.length_cons] at h
          omega
        have hlen' : (rest.drop srest.length).length ≤ f' := by
          rw [List.length_drop]
          simp only [List.length_cons] at h'
          omega
        rw [ih f' [] (rest.drop srest.length) hlen hlen']
      · rw [if_neg hpre, if_neg hpre]
        have hlen : rest.length ≤ fuel := by
          simp only [List.length_cons] at h
          omega
        have hlen' : rest.length ≤ f' := by
          simp only [List.length_cons] at h'
          omega
        rw [ih f' (c :: acc) rest hlen hlen']

lemma splitOnAux_no_sep (c : Nat) :
    ∀ (v acc : List Nat) (fuel : Nat), c ∉ v → v.length ≤ fuel →
      splitOnAux c [] fuel acc v = [acc.reverse ++ v] := by
  intro v
  induction v with
  | nil =>
    intro acc fuel _ _
    cases fuel <;> simp [splitOnAux]
  | cons x xs ih =>
    intro acc fuel h hf
    have h1 : 1 ≤ fuel := by
      simp only [List.length_cons] at hf
      omega
    obtain ⟨f, rfl⟩ : ∃ f, fuel = f + 1 := ⟨fuel - 1, by omega⟩
    have hx : ¬ ([c] <+: x :: xs) := by
      rw [singleton_isPrefix_cons]
      intro he
      exact h (by rw [he]; exact List.mem_cons_self x xs)
    rw [splitOnAux_succ, if_neg hx]
    rw [ih (x :: acc) f (fun hm => h (List.mem_cons_of_mem x hm))
      (by simp only [List.length_cons] at hf; omega)]
    simp

lemma splitOnAux_boundary (c : Nat) :
    ∀ (v rest acc : List Nat) (fuel : Nat), c ∉ v →
      v.length + 1 + rest.length ≤ fuel →
      splitOnAux c [] fuel acc (v ++ c :: rest) =
        (acc.reverse ++ v) :: splitOnAux c [] rest.length [] rest := by
  intro v
  induction v with
  | nil =>
    intro rest acc fuel _ hf
    obtain ⟨f, rfl⟩ : ∃ f, fuel = f + 1 := ⟨fuel - 1, by omega⟩
    have hpre : ([c] : List Nat) <+: (c :: rest) := ⟨rest, rfl⟩
    show splitOnAux c [] (f + 1) acc ([] ++ c :: rest) =
      (acc.reverse ++ []) :: splitOnAux c [] rest.length [] rest
    rw [List.nil_append, splitOnAux_succ, if_pos hpre]
    simp only [List.length_nil, List.drop_zero, List.append_nil]
    rw [splitOnAux_fuel_irrelevant c [] f rest.length [] rest
      (by simp only [List.length_nil] at hf; omega) (le_refl _)]
  | cons x xs ih =>
    intro rest acc fuel h hf
    obtain ⟨f, rfl⟩ : ∃ f, fuel = f + 1 := ⟨fuel - 1, by omega⟩
    have hx : ¬ ([c] <+: x :: (xs ++ c :: rest)) := by
      rw [singleton_isPrefix_cons]
      intro he
      exact h (by rw [he]; exact List.mem_cons_self x xs)
    show splitOnAux c [] (f + 1) acc (x :: (xs ++ c :: rest)) =
      (acc.reverse ++ x :: xs) :: splitOnAux c [] rest.length [] rest
    rw [splitOnAux_succ, if_neg hx]
    rw [ih rest (x :: acc) f (fun hm => h (List.mem_cons_of_mem x hm))
      (by simp only [List.length_cons] at hf; omega)]
    simp

lemma pySplit_pyJoin (c : Nat) :
    ∀ parts : List Bytes, parts ≠ [] → (∀ p ∈ parts, c ∉ p) →
      pySplit [c] (pyJoin [c] parts) = some parts := by
  intro parts
  induction parts with
  | nil => intro h; exact absurd rfl h
  | cons v vs ih =>
    intro _ hmem
    cases vs with
    | nil =>
      show some (splitOnAux c [] v.length [] v) = some [v]
      rw [splitOnAux_no_sep c v [] v.length (hmem v (List.mem_cons_self v []))
        (le_refl _)]
      rfl
    | cons w ws =>
      have hjoin : pyJoin [c] (v :: w :: ws) = v ++ c :: pyJoin [c] (w :: ws) := by
        show v ++ [c] ++ pyJoin [c] (w :: ws) = v ++ c :: pyJoin [c] (w :: ws)
        simp
      show some (splitOnAux c [] (pyJoin [c] (v :: w :: ws)).length []
        (pyJoin [c] (v :: w :: ws))) = some (v :: w :: ws)
      rw [hjoin]
      rw [splitOnAux_boundary c v (pyJoin [c] (w :: ws)) []
        (v ++ c :: pyJoin [c] (w :: ws)).length
        (hmem v (List.mem_cons_self v (w :: ws)))
        (by simp only [List.length_append, List.length_cons]; omega)]
      have := ih (by simp) (fun p hp => hmem p (List.mem_cons_of_mem v hp))
      simp only [pySplit, Option.some.injEq] at this
      rw [this]
      rfl

lemma pyDropLast_append (nl t : Bytes) (hnl : nl ≠ []) :
    pyDropLast nl.length (t ++ nl) = t := by
  have hn : nl.length ≠ 0 := fun h => hnl (List.eq_nil_of_length_eq_zero h)
  simp only [pyDropLast, if_neg hn]
  have hlen : (t ++ nl).length - nl.length = t.length + 0 := by
    rw [List.length_append]
    omega
  rw [hlen, take_append_len]
  simp

lemma xsvEncodeValues_total {V : Type} (sep nl : Bytes) (sample : Bytes → V) :
    ∀ columns : List (Bytes × (V → Bytes) × (Bytes → V)),
      (∀ col ∈ columns, ¬ (sep <:+: col.2.1 (sample col.1)) ∧
        ¬ (nl <:+: col.2.1 (sample col.1))) →
      xsvEncodeValues sep nl sample
          (columns.map fun col => (col.1, fun v => some (col.2.1 v))) =
        some (columns.map fun col => col.2.1 (sample col.1)) := by
  intro columns
  induction columns with
  | nil => intro _; rfl
  | cons col cols ih =>
    intro hsafe
    obtain ⟨h1, h2⟩ := hsafe col (List.mem_cons_self col cols)
    show (if nl <:+: col.2.1 (sample col.1) then none
      else if sep <:+: col.2.1 (sample col.1) then none
      else
        match xsvEncodeValues sep nl sample
            (cols.map fun col => (col.1, fun v => some (col.2.1 v))) with
        | none => none
        | some rest => some (col.2.1 (sample col.1) :: rest)) = _
    rw [if_neg h2, if_neg h1, ih (fun d hd => hsafe d (List.mem_cons_of_mem col hd))]
    rfl

lemma xsv_zip_decode {V : Type} (sample : Bytes → V) :
    ∀ columns : List (Bytes × (V → Bytes) × (Bytes → V)),
      (∀ col ∈ columns, col.2.2 (col.2.1 (sample col.1)) = sample col.1) →
      ((columns.map fun col => (col.1, col.2.2)).zip
          (columns.map fun col => col.2.1 (sample col.1))).map
        (fun p => (p.1.1, p.1.2 p.2)) = columns.map fun col => (col.1, sample col.1) := by
  intro columns
  induction columns with
  | nil => intro _; rfl
  | cons col cols ih =>
    intro hinv
    simp only [List.map_cons, List.zip_cons_cons]
    rw [hinv col (List.mem_cons_self col cols),
      ih (fun d hd => hinv d (List.mem_cons_of_mem col hd))]

/-- C6 (amended): for a single-character separator (as in CSV/TSV) and a
non-empty newline (the constructor rejects an empty one), if every encoded
column value contains neither the separator nor the newline and each
per-column decode is a left inverse of the encode, then
`_decode_sample (_encode_sample s)` returns the declared columns mapped to
their original values. -/
theorem xsv_round_trip (V : Type) (columns : List (Bytes × (V → Bytes) × (Bytes → V)))
    (c : Nat) (nl : Bytes) (sample : Bytes → V)
    (hnl : nl ≠ [])
    (hsafe : ∀ col ∈ columns, ¬ ([c] <:+: col.2.1 (sample col.1)) ∧
      ¬ (nl <:+: col.2.1 (sample col.1)))
    (hinv : ∀ col ∈ columns, col.2.2 (col.2.1 (sample col.1)) = sample col.1) :
    ∃ row,
      xsvEncodeSample (columns.map fun col => (col.1, fun v => some (col.2.1 v)))
        [c] nl sample = some row ∧
      xsvDecodeSample (columns.map fun col => (col.1, col.2.2)) [c] nl row =
        some (columns.map fun col => (col.1, sample col.1)) := by
  refine ⟨pyJoin [c] (columns.map fun col => col.2.1 (sample col.1)) ++ nl, ?_, ?_⟩
  · show (xsvEncodeValues [c] nl sample
        (columns.map fun col => (col.1, fun v => some (col.2.1 v)))).map
        (fun vs => pyJoin [c] vs ++ nl) = _
    rw [xsvEncodeValues_total [c] nl sample columns hsafe]
    rfl
  · show (pySplit [c] (pyDropLast nl.length
        (pyJoin [c] (columns.map fun col => col.2.1 (sample col.1)) ++ nl))).map
        (fun parts => (((columns.map fun col => (col.1, col.2.2)).zip parts).map
          (fun p => (p.1.1, p.1.2 p.2)))) = _
    rw [pyDropLast_append nl _ hnl]
    cases hcols : columns with
    | nil =>
      show (pySplit [c] (pyJoin [c] [])).map _ = _
      rfl
    | cons col cols =>
      have hvne : (columns.map fun col => col.2.1 (sample col.1)) ≠ [] := by
        rw [hcols]
        simp
      have hmem : ∀ p ∈ (columns.map fun col => col.2.1 (sample col.1)), c ∉ p := by
        intro p hp
        obtain ⟨col, hcol, rfl⟩ := List.mem_map.mp hp
        intro hc
        exact (hsafe col hcol).1 ((singleton_isInfix_iff_mem c _).mpr hc)
      rw [← hcols]
      rw [pySplit_pyJoin c (columns.map fun col => col.2.1 (sample col.1)) hvne hmem]
      show some ((((columns.map fun col => (col.1, col.2.2)).zip
        (columns.map fun col => col.2.1 (sample col.1))).map
        (fun p => (p.1.1, p.1.2 p.2)))) = _
      rw [xsv_zip_decode sample columns hinv]

/-- C6 witness: one column named "a" with the identity codec, separator ","
(single character), newline `[10]`, value "hi". -/
theorem xsv_round_trip_witness :
    ∃ row,
      xsvEncodeSample
        (([(([97] : Bytes), (fun v : Bytes => v), (fun v : Bytes => v))]).map
          fun col => (col.1, fun v => some (col.2.1 v))) [44] [10]
        (fun _ => ([104, 105] : Bytes)) = some row ∧
      xsvDecodeSample
        (([(([97] : Bytes), (fun v : Bytes => v), (fun v : Bytes => v))]).map
          fun col => (col.1, col.2.2)) [44] [10] row =
        some (([(([97] : Bytes), (fun v : Bytes => v), (fun v : Bytes => v))]).map
          fun col => (col.1, (fun _ => ([104, 105] : Bytes)) col.1)) :=
  xsv_round_trip Bytes [([97], (fun v => v), (fun v => v))] 44 [10]
    (fun _ => [104, 105]) (by decide)
    (by
      intro col hc
      rw [List.mem_singleton] at hc
      rw [hc]
      exact ⟨by decide, by decide⟩)
    (by
      intro col hc
      rw [List.mem_singleton] at hc
      rw [hc])

/-- C6 counterexample to the claim for arbitrary separators: with the
two-character separator "aa" (bytes `[97, 97]`), identity codecs, newline
`[10]`, and values "a" and "b" — none of which contain the separator or the
newline — the round trip yields `{w: "", x: "ab"}` instead of
`{w: "a", x: "b"}`, because the separator overlaps the boundary between the
first value and the separator in the joined row "aaab". -/
theorem xsv_round_trip_cex :
    (¬ (([97, 97] : Bytes) <:+: [97])) ∧ (¬ (([97, 97] : Bytes) <:+: [98])) ∧
    (¬ (([10] : Bytes) <:+: [97])) ∧ (¬ (([10] : Bytes) <:+: [98])) ∧
    xsvEncodeSample
        [(([119] : Bytes), fun v : Bytes => some v),
         (([120] : Bytes), fun v : Bytes => some v)]
        [97, 97] [10]
        (fun name => if name = [119] then [97] else [98]) =
      some [97, 97, 97, 98, 10] ∧
    xsvDecodeSample
        [(([119] : Bytes), fun v : Bytes => v), (([120] : Bytes), fun v : Bytes => v)]
        [97, 97] [10] [97, 97, 97, 98, 10] =
      some [([119], []), ([120], [97, 98])] ∧
    ([([119], []), ([120], [97, 98])] : List (Bytes × Bytes)) ≠
      [([119], [97]), ([120], [98])] := by
  decide

/-- `Reader.__getitem__` instantiated with the XSV extension points:
`_decode_sample(_get_sample_data(idx))`, with no bounds check of its own. -/
def xsvGetItem (V : Type) (columns : List (Bytes × (Bytes → V))) (sep nl : Bytes)
    (meta data : Bytes) (idx : Int) : Option (List (Bytes × V)) :=
  (xsvGetSampleData meta data idx).bind (xsvDecodeSample columns sep nl)

/-- C4 (amended): neither `Reader.__getitem__` nor `XSVReader._get_sample_data`
checks the index against the declared sample count: `_get_sample_data`
succeeds for any non-negative `idx` whenever the meta file has 8 bytes
available at byte position `4 * (1 + idx)` — in particular for indices at or
past the declared length — returning whatever bytes the offsets found there
select, rather than failing with an IndexError. -/
theorem xsv_get_sample_data_no_bounds_check (meta data : Bytes) (idx : Int)
    (h0 : 0 ≤ idx) (hlen : ((1 + idx) * 4).toNat + 8 ≤ meta.length) :
    ∃ bs, xsvGetSampleData meta data idx = some bs := by
  have heq : xsvGetSampleData meta data idx =
      if (1 + idx) * 4 < 0 then none
      else if ((meta.drop ((1 + idx) * 4).toNat).take 8).length = 8 then
        some ((data.drop (leU32 (((meta.drop ((1 + idx) * 4).toNat).take 8).take 4))).take
          (u32sub (leU32 (((meta.drop ((1 + idx) * 4).toNat).take 8).drop 4))
            (leU32 (((meta.drop ((1 + idx) * 4).toNat).take 8).take 4))))
      else none := rfl
  have hplen : ((meta.drop ((1 + idx) * 4).toNat).take 8).length = 8 := by
    rw [List.length_take, List.length_drop]
    omega
  rw [heq, if_neg (show ¬ ((1 + idx) * 4 < 0) by omega), if_pos hplen]
  exact ⟨_, rfl⟩

/-- C4 witness: a 32-byte meta file; index 5 succeeds regardless of any
declared sample count. -/
theorem xsv_get_sample_data_no_bounds_check_witness :
    ∃ bs, xsvGetSampleData (List.replicate 32 0) [] 5 = some bs :=
  xsv_get_sample_data_no_bounds_check (List.replicate 32 0) [] 5 (by decide) (by decide)

/-- C4 counterexample: a one-sample XSV shard (column "a", separator ",",
newline `[10]`, data file "a\nhi\n", offsets `[2, 5]`, 4-byte config blob);
`get(1)` — the declared length is 1, so index 1 is out of range — succeeds
and returns a decoded sample (built from offsets read past the offset table,
inside the config blob) instead of failing with an IndexError-class error. -/
theorem xsv_get_item_out_of_bounds_cex :
    xsvGetItem Bytes [(([97] : Bytes), fun b => b)] [44] [10]
        (u32Bytes 1 ++ ([2, 5].map u32Bytes).flatten ++ [123, 125, 32, 32])
        [97, 10, 104, 105, 10] 1 =
      some [([97], [])] := by
  decide

/-- Modelled from the spec: the value type flowing through the delimited
codec's encoders (`streaming/base/format/xsv/encodings.py` is not under
`src/`); the spec's example schema uses 'int' and 'str' columns. -/
inductive PyValue : Type
  | pstr (s : Bytes)
  | pint (n : Int)

/-- ASCII decimal digits of a natural number (fuel-structural). -/
def natDigitsAux : Nat → Nat → Bytes
  | 0, _ => []
  | fuel + 1, n => if n = 0 then [] else natDigitsAux fuel (n / 10) ++ [n % 10 + 48]

/-- ASCII decimal representation of an integer. -/
def intDecimal (n : Int) : Bytes :=
  if n < 0 then 45 :: natDigitsAux (-n).toNat (-n).toNat
  else if n = 0 then [48]
  else natDigitsAux n.toNat n.toNat

/-- Modelled from the spec: registry membership test `is_xsv_encoding` for
the text-safe delimited-codec registry ('str' and 'int'). -/
def is_xsv_encoding (e : String) : Bool :=
  e == "str" || e == "int"

/-- Modelled from the spec: `xsv_encode` — 'str' text passes through
unchanged, 'int' encodes in decimal; unknown encoding or a value of the
wrong shape raises (`none`). -/
def xsv_encode (e : String) (v : PyValue) : Option Bytes :=
  match e, v with
  | "str", .pstr s => some s
  | "int", .pint n => some (intDecimal n)
  | _, _ => none

/-- `XSVWriter.__init__` validation: `zip(*columns)` needs at least one
column, column names must be unique, no name may contain the newline or the
separator (Python substring `in`), and every encoding must be registered. -/
def xsvWriterInit (columns : List (Bytes × String)) (separator newline : Bytes) : Prop :=
  columns ≠ [] ∧ (columns.map Prod.fst).Nodup ∧
  (∀ name ∈ columns.map Prod.fst, ¬ (newline <:+: name) ∧ ¬ (separator <:+: name)) ∧
  (∀ col ∈ columns, is_xsv_encoding col.2 = true)

/-- `XSVWriter._encode_sample` with the registry encodings plugged in. -/
def xsvWriterEncodeSample (columns : List (Bytes × String)) (sep nl : Bytes)
    (sample : Bytes → PyValue) : Option Bytes :=
  xsvEncodeSample (columns.map fun col => (col.1, xsv_encode col.2)) sep nl sample

lemma xsvEncodeValues_cons {V : Type} (sep nl : Bytes) (sample : Bytes → V)
    (name : Bytes) (enc : V → Option Bytes)
    (cols : List (Bytes × (V → Option Bytes))) :
    xsvEncodeValues sep nl sample ((name, enc) :: cols) =
      match enc (sample name) with
      | none => none
      | some v =>
        if nl <:+: v then none
        else if sep <:+: v then none
        else
          match xsvEncodeValues sep nl sample cols with
          | none => none
          | some rest => some (v :: rest) := rfl

lemma xsvEncodeValues_reject {V : Type} (sep nl : Bytes) (sample : Bytes → V) :
    ∀ columns : List (Bytes × (V → Option Bytes)),
      (∃ col ∈ columns, ∃ v, col.2 (sample col.1) = some v ∧
        (nl <:+: v ∨ sep <:+: v)) →
      xsvEncodeValues sep nl sample columns = none := by
  intro columns
  induction columns with
  | nil =>
    rintro ⟨col, hc, _⟩
    exact absurd hc (List.not_mem_nil col)
  | cons d cols ih =>
    rintro ⟨col, hc, v, hv, hbad⟩
    obtain ⟨name, enc⟩ := d
    rw [xsvEncodeValues_cons]
    rcases List.mem_cons.mp hc with heq | hc2
    · have hv2 : enc (sample name) = some v := by rw [heq] at hv; exact hv
      rw [hv2]
      show (if nl <:+: v then none
        else if sep <:+: v then none
        else
          match xsvEncodeValues sep nl sample cols with
          | none => none
          | some rest => some (v :: rest)) = none
      rcases hbad with h | h
      · rw [if_pos h]
      · by_cases h1 : nl <:+: v
        · rw [if_pos h1]
        · rw [if_neg h1, if_pos h]
    · have hnone := ih ⟨col, hc2, v, hv, hbad⟩
      cases hd : enc (sample name) with
      | none => rfl
      | some w =>
        show (if nl <:+: w then none
          else if sep <:+: w then none
          else
            match xsvEncodeValues sep nl sample cols with
            | none => none
            | some rest => some (w :: rest)) = none
        rw [hnone]
        by_cases h1 : nl <:+: w
        · rw [if_pos h1]
        · rw [if_neg h1]
          by_cases h2 : sep <:+: w
          · rw [if_pos h2]
          · rw [if_neg h2]

/-- C7 (amended): constructing an XSV writer validates that every column
encoding is registered (`is_xsv_encoding`) — an unknown encoding fails
construction — but output safety against the active separator is not decided
at construction time: `_encode_sample` asserts per sample that each encoded
value contains neither the newline nor the separator, so a sample whose
encoded value contains either is rejected at encode time. -/
theorem xsv_writer_validation (columns : List (Bytes × String)) (sep nl : Bytes) :
    ((∃ col ∈ columns, is_xsv_encoding col.2 = false) →
      ¬ xsvWriterInit columns sep nl) ∧
    (∀ sample : Bytes → PyValue,
      (∃ col ∈ columns, ∃ v, xsv_encode col.2 (sample col.1) = some v ∧
        (nl <:+: v ∨ sep <:+: v)) →
      xsvWriterEncodeSample columns sep nl sample = none) := by
  constructor
  · rintro ⟨col, hc, hbad⟩ ⟨_, _, _, hreg⟩
    have h := hreg col hc
    rw [hbad] at h
    exact Bool.noConfusion h
  · intro sample hex
    have hnone : xsvEncodeValues sep nl sample
        (columns.map fun col => (col.1, xsv_encode col.2)) = none := by
      apply xsvEncodeValues_reject
      obtain ⟨col, hc, v, hv, hbad⟩ := hex
      exact ⟨(col.1, xsv_encode col.2), List.mem_map_of_mem _ hc, v, hv, hbad⟩
    show (xsvEncodeValues sep nl sample
      (columns.map fun col => (col.1, xsv_encode col.2))).map
      (fun vs => pyJoin sep vs ++ nl) = none
    rw [hnone]
    rfl

/-- C7 witness: an unregistered encoding ("nope") is rejected at
construction; a registered 'str' column whose value contains the separator
is rejected at encode time. -/
theorem xsv_writer_validation_witness :
    (¬ xsvWriterInit [(([119] : Bytes), "nope")] [44] [10]) ∧
    xsvWriterEncodeSample [(([119] : Bytes), "str")] [44] [10]
      (fun _ => PyValue.pstr [97, 44, 98]) = none :=
  ⟨(xsv_writer_validation [([119], "nope")] [44] [10]).1
      ⟨([119], "nope"), List.mem_singleton.mpr rfl, by decide⟩,
   (xsv_writer_validation [([119], "str")] [44] [10]).2 (fun _ => .pstr [97, 44, 98])
      ⟨([119], "str"), List.mem_singleton.mpr rfl, [97, 44, 98], by decide,
        Or.inr (by decide)⟩⟩

/-- C7 counterexample to the claim as stated: the 'str' encoding — whose
output can plainly contain the separator — passes construction for a
CSV-style writer (separator ","), and the sample `{words: "a,b"}` is then
rejected by `_encode_sample`'s per-sample assertion at encode time, contrary
to "no per-sample encode operation rejects a sample on the grounds that its
encoded value contains the separator". -/
theorem xsv_writer_encode_time_reject_cex :
    xsvWriterInit [(([119] : Bytes), "str")] [44] [10] ∧
    xsvWriterEncodeSample [(([119] : Bytes), "str")] [44] [10]
      (fun _ => PyValue.pstr [97, 44, 98]) = none := by
  constructor
  · exact ⟨by decide, by decide, by decide, by decide⟩
  · decide

/-- The per-column loop of `MDSWriter._encode_sample`: encode each column in
the (sorted) declared order; a column with no declared fixed size records
its actual encoded length in the size header, a column with a declared fixed
size is asserted to match it exactly (`none` models the assertion failure).
Returns the size-header entries and the per-column byte blocks. -/
def mdsEncodeColumns {V : Type} (sample : Bytes → V) :
    List (Bytes × (V → Bytes) × Option Nat) → Option (List Nat × List Bytes)
  | [] => some ([], [])
  | (name, enc, size?) :: cols =>
    match size? with
    | none =>
      match mdsEncodeColumns sample cols with
      | none => none
      | some (sizes, data) =>
        some ((enc (sample name)).length :: sizes, enc (sample name) :: data)
    | some size =>
      if size = (enc (sample name)).length then
        match mdsEncodeColumns sample cols with
        | none => none
        | some (sizes, data) => some (sizes, enc (sample name) :: data)
      else none

/-- `MDSWriter._encode_sample`: the uint32 size header (`np.array(sizes,
np.uint32).tobytes()`) followed by the concatenated column byte blocks. -/
def mdsEncodeSample {V : Type} (columns : List (Bytes × (V → Bytes) × Option Nat))
    (sample : Bytes → V) : Option Bytes :=
  (mdsEncodeColumns sample columns).map
    (fun p => ((p.1.map u32Bytes).flatten) ++ p.2.flatten)

lemma mdsEncodeColumns_cons {V : Type} (sample : Bytes → V) (name : Bytes)
    (enc : V → Bytes) (size? : Option Nat)
    (cols : List (Bytes × (V → Bytes) × Option Nat)) :
    mdsEncodeColumns sample ((name, enc, size?) :: cols) =
      match size? with
      | none =>
        match mdsEncodeColumns sample cols with
        | none => none
        | some (sizes, data) =>
          some ((enc (sample name)).length :: sizes, enc (sample name) :: data)
      | some size =>
        if size = (enc (sample name)).length then
          match mdsEncodeColumns sample cols with
          | none => none
          | some (sizes, data) => some (sizes, enc (sample name) :: data)
        else none := rfl

lemma mdsEncodeColumns_mismatch {V : Type} (sample : Bytes → V) :
    ∀ columns : List (Bytes × (V → Bytes) × Option Nat),
      (∃ col ∈ columns, ∃ s, col.2.2 = some s ∧ (col.2.1 (sample col.1)).length ≠ s) →
      mdsEncodeColumns sample columns = none := by
  intro columns
  induction columns with
  | nil =>
    rintro ⟨col, hc, _⟩
    exact absurd hc (List.not_mem_nil col)
  | cons d cols ih =>
    rintro ⟨col, hc, s, hs, hlen⟩
    obtain ⟨name, enc, size?⟩ := d
    rw [mdsEncodeColumns_cons]
    rcases List.mem_cons.mp hc with heq | hc2
    · have hs2 : size? = some s := by rw [heq] at hs; exact hs
      have hlen2 : (enc (sample name)).length ≠ s := by rw [heq] at hlen; exact hlen
      rw [hs2]
      show (if s = (enc (sample name)).length then
        match mdsEncodeColumns sample cols with
        | none => none
        | some (sizes, data) => some (sizes, enc (sample name) :: data)
        else none) = none
      rw [if_neg (fun he => hlen2 he.symm)]
    · have hnone := ih ⟨col, hc2, s, hs, hlen⟩
      cases size? with
      | none =>
        show (match mdsEncodeColumns sample cols with
          | none => none
          | some (sizes, data) =>
            some ((enc (sample name)).length :: sizes, enc (sample name) :: data)) = none
        rw [hnone]
      | some sz =>
        show (if sz = (enc (sample name)).length then
          match mdsEncodeColumns sample cols with
          | none => none
          | some (sizes, data) => some (sizes, enc (sample name) :: data)
          else none) = none
        by_cases hsz : sz = (enc (sample name)).length
        · rw [if_pos hsz, hnone]
        · rw [if_neg hsz]

/-- C8: for any sample in which some column with a declared fixed size
encodes to a byte length different from that size,
`MDSWriter._encode_sample` fails (assertion) and produces no bytes at all —
the shard buffer receives nothing, and no truncated or padded value is
emitted. -/
theorem mds_encode_sample_size_mismatch {V : Type}
    (columns : List (Bytes × (V → Bytes) × Option Nat)) (sample : Bytes → V)
    (h : ∃ col ∈ columns, ∃ s, col.2.2 = some s ∧ (col.2.1 (sample col.1)).length ≠ s) :
    mdsEncodeSample columns sample = none := by
  show (mdsEncodeColumns sample columns).map
    (fun p => ((p.1.map u32Bytes).flatten) ++ p.2.flatten) = none
  rw [mdsEncodeColumns_mismatch sample columns h]
  rfl

/-- C8 witness: a single column declaring fixed size 3 whose encoder emits 2
bytes; the sample encode fails. -/
theorem mds_encode_sample_size_mismatch_witness :
    mdsEncodeSample [(([97] : Bytes), (fun _ : Unit => ([0, 0] : Bytes)), some 3)]
      (fun _ => ()) = none :=
  mds_encode_sample_size_mismatch _ _
    ⟨([97], (fun _ => [0, 0]), some 3), List.mem_singleton.mpr rfl, 3, rfl, by decide⟩

/-- The Reader classes registered in the `_readers` dispatch table of
`streaming.base.format`. -/
inductive ReaderKind : Type
  | csv
  | json
  | mds
  | tsv
  | xsv

/-- The failure modes of `reader_from_json`: the `version` assertion and the
dict `KeyError` on an unregistered format string. -/
inductive ReaderFromJsonErr : Type
  | badVersion
  | unknownFormat

/-- The `_readers` dispatch table. -/
def readersTable : List (String × ReaderKind) :=
  [("csv", .csv), ("json", .json), ("mds", .mds), ("tsv", .tsv), ("xsv", .xsv)]

/-- `reader_from_json`: assert `obj['version'] == 2` first, then select the
Reader class registered for `obj['format']`. -/
def reader_from_json (version : Int) (format : String) :
    Except ReaderFromJsonErr ReaderKind :=
  if version = 2 then
    match readersTable.lookup format with
    | some k => .ok k
    | none => .error .unknownFormat
  else .error .badVersion

/-- C9: `reader_from_json` rejects any version other than 2 before looking
at the format; with version 2 an unregistered format fails with the
unknown-format error, and a registered format dispatches to the Reader
constructor registered for it in the table. -/
theorem reader_from_json_dispatch (version : Int) (format : String) :
    (version ≠ 2 → reader_from_json version format = .error .badVersion) ∧
    (version = 2 → format ∉ readersTable.map Prod.fst →
      reader_from_json version format = .error .unknownFormat) ∧
    (version = 2 → ∀ k, (format, k) ∈ readersTable →
      reader_from_json version format = .ok k) := by
  refine ⟨?_, ?_, ?_⟩
  · intro h
    simp only [reader_from_json, if_neg h]
  · intro h2 hmem
    subst h2
    simp only [readersTable, List.map_cons, List.map_nil, List.mem_cons,
      List.not_mem_nil, or_false, not_or] at hmem
    obtain ⟨h1, h2, h3, h4, h5⟩ := hmem
    have e1 : (format == "csv") = false := beq_eq_false_iff_ne.mpr h1
    have e2 : (format == "json") = false := beq_eq_false_iff_ne.mpr h2
    have e3 : (format == "mds") = false := beq_eq_false_iff_ne.mpr h3
    have e4 : (format == "tsv") = false := beq_eq_false_iff_ne.mpr h4
    have e5 : (format == "xsv") = false := beq_eq_false_iff_ne.mpr h5
    simp only [reader_from_json, if_pos rfl, readersTable, List.lookup,
      e1, e2, e3, e4, e5, if_true]
  · intro h2 k hk
    subst h2
    simp only [readersTable, List.mem_cons, List.not_mem_nil, or_false,
      Prod.mk.injEq] at hk
    rcases hk with ⟨rfl, rfl⟩ | ⟨rfl, rfl⟩ | ⟨rfl, rfl⟩ | ⟨rfl, rfl⟩ | ⟨rfl, rfl⟩ <;> rfl

/-- C9 witness: version 3 is rejected (even with a registered format), an
unknown format "parquet" fails with the unknown-format error under version
2, and ("mds", version 2) dispatches to the MDS Reader. -/
theorem reader_from_json_dispatch_witness :
    reader_from_json 3 "mds" = .error .badVersion ∧
    reader_from_json 2 "parquet" = .error .unknownFormat ∧
    reader_from_json 2 "mds" = .ok .mds :=
  ⟨(reader_from_json_dispatch 3 "mds").1 (by decide),
   (reader_from_json_dispatch 2 "parquet").2.1 rfl (by decide),
   (reader_from_json_dispatch 2 "mds").2.2 rfl .mds
     (List.mem_cons_of_mem _ (List.mem_cons_of_mem _ (List.mem_cons_self _ _)))⟩
